import Mathlib

/-!
Verification of the jitcode code-generation pipeline.

This file gives a shallow embedding of the pure parts of the two source
files `jitcode/_jitcode.py` and `jitcode/_helpers.py`:

* a small symbolic-expression type `Expr` mirroring the fragment of
  SymPy expressions used by the claims (state symbols `y(i)`, helper
  symbols, integer constants, sums and products with SymPy's automatic
  evaluation rules for zero, one, constant folding, and collection of
  equal summands);
* the helper sorter `_sort_helpers` / `depends_on_any`;
* the Jacobian synthesizer `_jac_from_f_with_helpers`;
* the augmented right-hand side of `jitcode_lyap.__init__`;
* the string utilities `rsplit_int` / `count_up` and the chunked code
  emitter `write_in_chunks`;
* the sparse Jacobian assignment producer of `jitcode.generate_jac_C`;
* the module-name bookkeeping of `jitcode.compile_C`;
* the state save/restore logic of `jitcode.set_integrator`;
* the Gram-Schmidt routine `orthonormalise`, read over exact reals.
-/

namespace Jitcode

/-! ### Symbolic expressions

`Expr` embeds the fragment of SymPy expressions the claims need.
`Expr.y i` is the dynamical variable `y(i)`, `Expr.sym k` is the `k`-th
helper symbol, and `Expr.const` an integer literal.  SymPy's `Add` and
`Mul` evaluate trivialities on construction (dropping zeros, folding
numbers, `x + x = 2*x`, units of multiplication); `addE` and `mulE`
reproduce those rules so that `diffE` below yields the same expression
trees as `sympy.diff` on the inputs of the claims. -/

inductive Expr where
  | y     : Nat → Expr
  | sym   : Nat → Expr
  | const : Int → Expr
  | add   : Expr → Expr → Expr
  | mul   : Expr → Expr → Expr
deriving DecidableEq, Repr

/-- SymPy `Add` with automatic evaluation. -/
def addE : Expr → Expr → Expr
  | .const a, .const b => .const (a + b)
  | .const 0, b => b
  | a, .const 0 => a
  | a, b => if a = b then .mul (.const 2) a else .add a b

/-- SymPy `Mul` with automatic evaluation. -/
def mulE : Expr → Expr → Expr
  | .const a, .const b => .const (a * b)
  | .const 0, _ => .const 0
  | _, .const 0 => .const 0
  | .const 1, b => b
  | a, .const 1 => a
  | a, b => .mul a b

/-- SymPy's `Basic.has`: whether `v` occurs as a subexpression of `e`. -/
def hasE : Expr → Expr → Bool
  | .add a b, v => decide (Expr.add a b = v) || hasE a v || hasE b v
  | .mul a b, v => decide (Expr.mul a b = v) || hasE a v || hasE b v
  | e, v => decide (e = v)

/-- SymPy's `diff e v` for an atomic `v` (a `y i` or a helper symbol),
with the sum and product rules and automatic evaluation. -/
def diffE : Expr → Expr → Expr
  | .y i, v => if Expr.y i = v then .const 1 else .const 0
  | .sym n, v => if Expr.sym n = v then .const 1 else .const 0
  | .const _, _ => .const 0
  | .add a b, v => addE (diffE a v) (diffE b v)
  | .mul a b, v => addE (mulE (diffE a v) b) (mulE a (diffE b v))

/-! ### The helper sorter

A helper is a pair of a symbol (identified by its index into `Expr.sym`)
and a defining expression, as in `_jitcode.py`. -/

/-- A helper: `(symbol, expression)`. -/
abbrev Helper := Nat × Expr

/-- Direct embedding of `depends_on_any` from `_jitcode.py`. -/
def depends_on_any (h : Helper) (others : List Helper) : Bool :=
  others.any fun o => hasE h.2 (.sym o.1)

/-- Removes the first element satisfying `p` from a list, returning it
together with the remaining list.  This models the
`helpers.insert(0, helpers.pop(j))` step of `_sort_helpers`, which scans
for the first helper `j` without outstanding dependencies. -/
def extractFirst {α : Type} (p : α → Bool) : List α → Option (α × List α)
  | [] => none
  | x :: t =>
    if p x then some (x, t)
    else
      match extractFirst p t with
      | none => none
      | some (z, r) => some (z, x :: r)

theorem extractFirst_length {α : Type} (p : α → Bool) :
    ∀ (l : List α) (x : α) (r : List α),
      extractFirst p l = some (x, r) → r.length + 1 = l.length := by
  intro l
  induction l with
  | nil => intro x r h; simp [extractFirst] at h
  | cons a t ih =>
    intro x r h
    by_cases hp : p a
    · simp [extractFirst, hp] at h
      simp [← h.2]
    · simp only [extractFirst, hp, Bool.false_eq_true, if_false] at h
      cases het : extractFirst p t with
      | none => rw [het] at h; simp at h
      | some zr =>
        rw [het] at h
        obtain ⟨z, r0⟩ := zr
        simp at h
        obtain ⟨h1, h2⟩ := h
        have := ih z r0 het
        simp [← h2, ← this]

theorem extractFirst_prop {α : Type} (p : α → Bool) :
    ∀ (l : List α) (x : α) (r : List α),
      extractFirst p l = some (x, r) → p x = true := by
  intro l
  induction l with
  | nil => intro x r h; simp [extractFirst] at h
  | cons a t ih =>
    intro x r h
    by_cases hp : p a
    · simp [extractFirst, hp] at h
      rw [← h.1]; exact hp
    · simp only [extractFirst, hp, Bool.false_eq_true, if_false] at h
      cases het : extractFirst p t with
      | none => rw [het] at h; simp at h
      | some zr =>
        rw [het] at h
        obtain ⟨z, r0⟩ := zr
        simp at h
        exact h.1 ▸ ih z r0 het

theorem extractFirst_perm {α : Type} (p : α → Bool) :
    ∀ (l : List α) (x : α) (r : List α),
      extractFirst p l = some (x, r) → (x :: r).Perm l := by
  intro l
  induction l with
  | nil => intro x r h; simp [extractFirst] at h
  | cons a t ih =>
    intro x r h
    by_cases hp : p a
    · simp [extractFirst, hp] at h
      rw [h.1, h.2]
    · simp only [extractFirst, hp, Bool.false_eq_true, if_false] at h
      cases het : extractFirst p t with
      | none => rw [het] at h; simp at h
      | some zr =>
        rw [het] at h
        obtain ⟨z, r0⟩ := zr
        simp at h
        obtain ⟨h1, h2⟩ := h
        rw [← h1, ← h2]
        exact (List.Perm.swap a z r0).trans ((ih z r0 het).cons a)

theorem extractFirst_sublist {α : Type} (p : α → Bool) :
    ∀ (l : List α) (x : α) (r : List α),
      extractFirst p l = some (x, r) → r.Sublist l := by
  intro l
  induction l with
  | nil => intro x r h; simp [extractFirst] at h
  | cons a t ih =>
    intro x r h
    by_cases hp : p a
    · simp [extractFirst, hp] at h
      exact h.2 ▸ (List.sublist_cons_self a t)
    · simp only [extractFirst, hp, Bool.false_eq_true, if_false] at h
      cases het : extractFirst p t with
      | none => rw [het] at h; simp at h
      | some zr =>
        rw [het] at h
        obtain ⟨z, r0⟩ := zr
        simp at h
        obtain ⟨h1, h2⟩ := h
        rw [← h2]
        exact (ih z r0 het).cons₂ a

theorem extractFirst_eq_none {α : Type} (p : α → Bool) :
    ∀ (l : List α), extractFirst p l = none → ∀ x ∈ l, p x = false := by
  intro l
  induction l with
  | nil => intro _ x hx; simp at hx
  | cons a t ih =>
    intro h x hx
    by_cases hp : p a
    · simp [extractFirst, hp] at h
    · simp only [extractFirst, hp, Bool.false_eq_true, if_false] at h
      cases het : extractFirst p t with
      | none =>
        rcases List.mem_cons.mp hx with rfl | hxt
        · exact Bool.eq_false_iff.mpr hp
        · exact ih het x hxt
      | some zr => rw [het] at h; obtain ⟨z, r0⟩ := zr; simp at h

/-- Direct embedding of `_sort_helpers` from `_jitcode.py`: for lists of
length at least 2, repeatedly move the first helper without a dependency
on any helper of the current list to the front and recurse on the rest;
`none` models the `ValueError("Helpers have cyclic dependencies.")`
raised when no such helper exists.  Lists of length at most 1 are
returned unchanged. -/
def sortHelpers (helpers : List Helper) : Option (List Helper) :=
  if 1 < helpers.length then
    match hef : extractFirst (fun hl => ! depends_on_any hl helpers) helpers with
    | none => none
    | some (hd, rest) =>
      have : rest.length < helpers.length := by
        have := extractFirst_length _ helpers hd rest hef
        omega
      (sortHelpers rest).map (fun sorted => hd :: sorted)
  else some helpers
termination_by helpers.length

theorem sortHelpers_of_le_one (l : List Helper) (h : l.length ≤ 1) :
    sortHelpers l = some l := by
  rw [sortHelpers.eq_def]
  rw [if_neg (by omega)]

theorem sortHelpers_step (l : List Helper) (h : 1 < l.length)
    (hd : Helper) (rest : List Helper)
    (hef : extractFirst (fun hl => ! depends_on_any hl l) l = some (hd, rest)) :
    sortHelpers l = (sortHelpers rest).map (fun sorted => hd :: sorted) := by
  rw [sortHelpers.eq_def]
  rw [if_pos h]
  split
  · next heq => rw [hef] at heq; exact absurd heq (by simp)
  · next hd2 rest2 heq =>
      rw [hef] at heq
      injection heq with heq2
      injection heq2 with h1 h2
      rw [h1, h2]

theorem sortHelpers_stuck (l : List Helper) (h : 1 < l.length)
    (hef : extractFirst (fun hl => ! depends_on_any hl l) l = none) :
    sortHelpers l = none := by
  rw [sortHelpers.eq_def]
  rw [if_pos h]
  split
  · rfl
  · next hd2 rest2 heq => rw [hef] at heq; exact absurd heq (by simp)

/-! ### Acyclicity and the two sorter theorems

`HelpersAcyclic l` says that every nonempty sublist of `l` contains a
helper whose expression refers to no symbol of the sublist.  For a
finite dependency graph this is exactly the absence of a cycle (a cycle
would be a nonempty sublist all of whose members depend into it; and in
an acyclic graph every nonempty subset has a sink).  It is stated over
`l.sublists` so that it is decidable. -/

def HelpersAcyclic (l : List Helper) : Prop :=
  ∀ s ∈ l.sublists, s ≠ [] → ∃ x ∈ s, ∀ z ∈ s, hasE x.2 (Expr.sym z.1) = false

instance (l : List Helper) : Decidable (HelpersAcyclic l) := by
  unfold HelpersAcyclic; infer_instance

theorem sortHelpers_sound :
    ∀ (n : Nat) (l : List Helper), l.length ≤ n → HelpersAcyclic l →
      ∃ l2, sortHelpers l = some l2 ∧ l2.Perm l ∧
        l2.Pairwise (fun a b => hasE a.2 (Expr.sym b.1) = false) := by
  intro n
  induction n with
  | zero =>
    intro l hl _
    have : l = [] := List.length_eq_zero.mp (Nat.le_zero.mp hl)
    subst this
    exact ⟨[], sortHelpers_of_le_one [] (by simp), List.Perm.refl _, List.Pairwise.nil⟩
  | succ n ih =>
    intro l hl hac
    by_cases hlen : 1 < l.length
    · have hsub : l ∈ l.sublists := List.mem_sublists.mpr (List.Sublist.refl l)
      have hne : l ≠ [] := by
        intro h; rw [h] at hlen; simp at hlen
      obtain ⟨x, hxl, hx⟩ := hac l hsub hne
      have hdep : depends_on_any x l = false := by
        unfold depends_on_any
        rw [List.any_eq_false]
        intro o ho
        simp [hx o ho]
      cases hef : extractFirst (fun hl => ! depends_on_any hl l) l with
      | none =>
        have := extractFirst_eq_none _ l hef x hxl
        rw [hdep] at this
        simp at this
      | some pr =>
        obtain ⟨hd, rest⟩ := pr
        have hrl : rest.length + 1 = l.length := extractFirst_length _ l hd rest hef
        have hrs : rest.Sublist l := extractFirst_sublist _ l hd rest hef
        have hperm : (hd :: rest).Perm l := extractFirst_perm _ l hd rest hef
        have hhd : ∀ z ∈ l, hasE hd.2 (Expr.sym z.1) = false := by
          have hp := extractFirst_prop _ l hd rest hef
          simp only [Bool.not_eq_true', depends_on_any, List.any_eq_false] at hp
          intro z hz
          simpa using hp z hz
        have hacr : HelpersAcyclic rest := by
          intro s hs hsne
          exact hac s
            (List.mem_sublists.mpr ((List.mem_sublists.mp hs).trans hrs)) hsne
        obtain ⟨r2, hr2, hr2perm, hr2pw⟩ := ih rest (by omega) hacr
        refine ⟨hd :: r2, ?_, ?_, ?_⟩
        · rw [sortHelpers_step l hlen hd rest hef, hr2]; rfl
        · exact (hr2perm.cons hd).trans hperm
        · refine List.Pairwise.cons ?_ hr2pw
          intro b hb
          exact hhd b (hrs.subset (hr2perm.subset hb))
    · have hcases : l = [] ∨ ∃ a, l = [a] := by
        cases l with
        | nil => exact .inl rfl
        | cons a t =>
          cases t with
          | nil => exact .inr ⟨a, rfl⟩
          | cons b u => exact absurd (by simp) hlen
      refine ⟨l, sortHelpers_of_le_one l (by omega), List.Perm.refl l, ?_⟩
      rcases hcases with rfl | ⟨a, rfl⟩
      · exact List.Pairwise.nil
      · simp

/-- Obstruction to sorting: a set `S` of at least two distinct helpers,
all members of `l`, each of which refers to the symbol of some member
of `S`.  Any dependency cycle through at least two distinct helpers
yields such a set (take the cycle's members). -/
def BlockedPair (S l : List Helper) : Prop :=
  (∀ x ∈ S, x ∈ l) ∧ (∀ x ∈ S, ∃ z ∈ S, hasE x.2 (Expr.sym z.1) = true) ∧
    ∃ a ∈ S, ∃ b ∈ S, a ≠ b

instance (S l : List Helper) : Decidable (BlockedPair S l) := by
  unfold BlockedPair; infer_instance

theorem one_lt_length_of_two_mem {α : Type} {l : List α} {a b : α}
    (ha : a ∈ l) (hb : b ∈ l) (hab : a ≠ b) : 1 < l.length := by
  cases l with
  | nil => simp at ha
  | cons x t =>
    cases t with
    | nil =>
      simp at ha hb
      rw [ha, hb] at hab
      exact absurd rfl hab
    | cons y u => simp

theorem sortHelpers_blocked :
    ∀ (n : Nat) (l : List Helper), l.length ≤ n →
      (∃ S, BlockedPair S l) → sortHelpers l = none := by
  intro n
  induction n with
  | zero =>
    intro l hl hS
    obtain ⟨S, hSl, _, a, ha, _⟩ := hS
    have : l = [] := List.length_eq_zero.mp (Nat.le_zero.mp hl)
    subst this
    exact absurd (hSl a ha) (by simp)
  | succ n ih =>
    intro l hl hS
    obtain ⟨S, hSl, hSdep, a, ha, b, hb, hab⟩ := hS
    have hlen : 1 < l.length := one_lt_length_of_two_mem (hSl a ha) (hSl b hb) hab
    cases hef : extractFirst (fun hl => ! depends_on_any hl l) l with
    | none => exact sortHelpers_stuck l hlen hef
    | some pr =>
      obtain ⟨hd, rest⟩ := pr
      have hrl : rest.length + 1 = l.length := extractFirst_length _ l hd rest hef
      have hperm : (hd :: rest).Perm l := extractFirst_perm _ l hd rest hef
      have hhd : ∀ z ∈ l, hasE hd.2 (Expr.sym z.1) = false := by
        have hp := extractFirst_prop _ l hd rest hef
        simp only [Bool.not_eq_true', depends_on_any, List.any_eq_false] at hp
        intro z hz
        simpa using hp z hz
      have hhdS : hd ∉ S := by
        intro hmem
        obtain ⟨z, hzS, hz⟩ := hSdep hd hmem
        rw [hhd z (hSl z hzS)] at hz
        exact absurd hz (by simp)
      have hSrest : ∀ x ∈ S, x ∈ rest := by
        intro x hx
        have hxl : x ∈ l := hSl x hx
        have : x ∈ hd :: rest := hperm.mem_iff.mpr hxl
        rcases List.mem_cons.mp this with rfl | hr
        · exact absurd hx hhdS
        · exact hr
      have : sortHelpers rest = none :=
        ih rest (by omega) ⟨S, hSrest, hSdep, a, ha, b, hb, hab⟩
      rw [sortHelpers_step l hlen hd rest hef, this]
      rfl

/-- C3: for every acyclic list of `(symbol, expression)` helper pairs,
`_sort_helpers` returns a permutation of the input in which, for every
index `i`, the expression of the helper at index `i` does not contain
the symbol of any helper at an index greater than `i` (stated as
`List.Pairwise`). -/
theorem claim_C3_sort_acyclic (l : List Helper) (hac : HelpersAcyclic l) :
    ∃ l2, sortHelpers l = some l2 ∧ l2.Perm l ∧
      l2.Pairwise (fun a b => hasE a.2 (Expr.sym b.1) = false) :=
  sortHelpers_sound l.length l le_rfl hac

theorem claim_C3_witness :
    HelpersAcyclic
        [(0, Expr.add (Expr.sym 1) (Expr.const 1)), (1, Expr.y 0)] ∧
      ∃ l2,
        sortHelpers [(0, Expr.add (Expr.sym 1) (Expr.const 1)), (1, Expr.y 0)]
            = some l2 ∧
          l2.Perm [(0, Expr.add (Expr.sym 1) (Expr.const 1)), (1, Expr.y 0)] ∧
          l2.Pairwise (fun a b => hasE a.2 (Expr.sym b.1) = false) :=
  ⟨by decide, claim_C3_sort_acyclic _ (by decide)⟩

/-- C4 counterexample: a helper whose expression refers to its own
symbol makes the dependency relation cyclic, yet `_sort_helpers`
returns the one-element list unchanged instead of raising the cyclic
dependency error, because lists of length at most 1 are returned
without any check. -/
theorem claim_C4_counterexample :
    ¬ HelpersAcyclic [(0, Expr.add (Expr.sym 0) (Expr.const 1))] ∧
      sortHelpers [(0, Expr.add (Expr.sym 0) (Expr.const 1))]
        = some [(0, Expr.add (Expr.sym 0) (Expr.const 1))] :=
  ⟨by decide, sortHelpers_of_le_one _ (by simp)⟩

/-- C4 (amended): whenever `l` contains a set of at least two distinct
helpers each of which depends on a member of the set — in particular
whenever the dependency relation has a cycle through at least two
distinct helpers — `_sort_helpers` fails with the cyclic-dependency
`ValueError` (modelled as `none`).  A lone self-referential helper does
not by itself cause the failure. -/
theorem claim_C4_sort_cyclic (l : List Helper) (h : ∃ S, BlockedPair S l) :
    sortHelpers l = none :=
  sortHelpers_blocked l.length l le_rfl h

theorem claim_C4_witness :
    (∃ S, BlockedPair S [(0, Expr.sym 1), (1, Expr.sym 0)]) ∧
      sortHelpers [(0, Expr.sym 1), (1, Expr.sym 0)] = none :=
  ⟨⟨[(0, Expr.sym 1), (1, Expr.sym 0)], by decide⟩,
    claim_C4_sort_cyclic _ ⟨[(0, Expr.sym 1), (1, Expr.sym 0)], by decide⟩⟩

/-! ### The Jacobian synthesizer

Embedding of `_jac_from_f_with_helpers` from `_jitcode.py`.  The
`simplify` branch applies `sympy.simplify(entry, ratio=1.0)`, an
external-engine operation; it is modelled by an arbitrary function
parameter `σ` and the claims are settled with `simplify = false`, a
supported parameter value of `generate_jac_sym`. -/

/-- The `dependent_helpers[i]` list built by `_jac_from_f_with_helpers`:
for each helper in order, its total derivative with respect to `y(i)`,
accumulating the chain-rule contributions through the helpers already
collected; helpers with vanishing derivative are skipped. -/
def dependent_helpers_for (helpers : List Helper) (i : Nat) : List (Nat × Expr) :=
  helpers.foldl
    (fun dhs helper =>
      let d0 := if hasE helper.2 (Expr.y i) then diffE helper.2 (Expr.y i)
                else Expr.const 0
      let d := dhs.foldl
        (fun acc oh =>
          if hasE helper.2 (Expr.sym oh.1) then
            addE acc (mulE (diffE helper.2 (Expr.sym oh.1)) oh.2)
          else acc) d0
      if d ≠ Expr.const 0 then dhs ++ [(helper.1, d)] else dhs)
    []

/-- The `line` generator of `_jac_from_f_with_helpers`: the row of
partial derivatives of one component `fEntry`, each entry being the
direct derivative plus the chain-rule contributions through the
dependent helpers. -/
def jac_line (σ : Expr → Expr) (simplify : Bool) (deps : List (List (Nat × Expr)))
    (n : Nat) (fEntry : Expr) : List Expr :=
  (List.range n).map fun j =>
    let e0 := diffE fEntry (Expr.y j)
    let e := (deps.getD j []).foldl
      (fun acc h => addE acc (mulE (diffE fEntry (Expr.sym h.1)) h.2)) e0
    if simplify then σ e else e

/-- Embedding of `_jac_from_f_with_helpers`: one row per component of
`f`. -/
def jac_from_f_with_helpers (σ : Expr → Expr) (simplify : Bool) (f : List Expr)
    (helpers : List Helper) (n : Nat) : List (List Expr) :=
  let deps := (List.range n).map (dependent_helpers_for helpers)
  f.map (jac_line σ simplify deps n)

/-- C2: with `n = 2` and no helpers, the synthesized Jacobian row of
`f_i = y(0)*y(1)` is `[y(1), y(0)]`; and with the helper
`h = y(0)+y(1)` (symbol 7) and `f_i = h*h`, the synthesized entries are
`2*h` in both columns — in particular the partial derivative with
respect to `y(0)` is `2*h`, obtained through the helper chain rule. -/
theorem claim_C2_jacobian (σ : Expr → Expr) :
    jac_from_f_with_helpers σ false [Expr.mul (Expr.y 0) (Expr.y 1)] [] 2
        = [[Expr.y 1, Expr.y 0]] ∧
      jac_from_f_with_helpers σ false [Expr.mul (Expr.sym 7) (Expr.sym 7)]
          [(7, Expr.add (Expr.y 0) (Expr.y 1))] 2
        = [[Expr.mul (Expr.const 2) (Expr.sym 7),
            Expr.mul (Expr.const 2) (Expr.sym 7)]] :=
  ⟨rfl, rfl⟩

/-! ### The tangent-space extension (`jitcode_lyap.__init__`) -/

/-- Clamping of the requested number of Lyapunov exponents:
`self._n_lyap = n if (n_lyap<0 or n_lyap>n) else n_lyap`. -/
def clamp_n_lyap (n : Nat) (nLyap : Int) : Nat :=
  if nLyap < 0 ∨ nLyap > (n : Int) then n else nLyap.toNat

/-- The dimension `jitcode_lyap.__init__` declares when calling
`jitcode.__init__`, namely `self._n_lyap*(n+1)`. -/
def lyap_declared_dim (n : Nat) (nLyap : Int) : Nat :=
  clamp_n_lyap n nLyap * (n + 1)

/-- The list of expressions produced by the generator `f_lyap` inside
`jitcode_lyap.__init__`: the base equations followed by, for each of
the `nl` tangent vectors, the Jacobian (synthesized with
`simplify=False`) applied to that tangent block; `σ` models the final
`sympy.simplify(…, ratio=1.0)` on each tangent entry. -/
def f_lyap (σ : Expr → Expr) (f : List Expr) (helpers : List Helper)
    (n nl : Nat) : List Expr :=
  f ++ (List.range nl).flatMap (fun i =>
    (jac_from_f_with_helpers σ false f helpers n).map (fun line =>
      σ (line.enum.foldl
          (fun acc ke => addE acc (mulE ke.2 (Expr.y (ke.1 + (i + 1) * n))))
          (Expr.const 0))))

/-- Length of the vector assembled by `jitcode_lyap.set_initial_value`:
the base state of length `n` followed by `n_lyap` random tangent
vectors of length `n` each, `hstack`-ed together. -/
def lyap_initial_len (n nl : Nat) : Nat := n + nl * n

/-- C1 (code bug): for the two-dimensional system `f = [y(1), y(0)]`
with one requested Lyapunov exponent, `jitcode_lyap.__init__` declares
dimension `n_lyap*(n+1) = 3` but its `f_lyap` generator produces
`n + n_lyap*n = 4` expressions, so the produced element count differs
from the declared dimension; the initial-value vector assembled by
`jitcode_lyap.set_initial_value` likewise has length 4 and is rejected
by the inherited dimension check. -/
theorem claim_C1_dimension_mismatch (σ : Expr → Expr) :
    clamp_n_lyap 2 1 = 1 ∧
      lyap_declared_dim 2 1 = 3 ∧
      (f_lyap σ [Expr.y 1, Expr.y 0] [] 2 (clamp_n_lyap 2 1)).length = 4 ∧
      lyap_initial_len 2 (clamp_n_lyap 2 1) = 4 ∧
      (f_lyap σ [Expr.y 1, Expr.y 0] [] 2 (clamp_n_lyap 2 1)).length
        ≠ lyap_declared_dim 2 1 := by
  have hlen : (f_lyap σ [Expr.y 1, Expr.y 0] [] 2 (clamp_n_lyap 2 1)).length = 4 := rfl
  refine ⟨rfl, rfl, hlen, rfl, ?_⟩
  rw [hlen]
  decide

/-! ### String utilities from `_helpers.py` -/

/-- Worker for `rsplit_int`, operating on the reversed character list:
Python's recursion on `s[:-1]` peels characters off the end of the
string.  Python's `str.isdigit` is modelled by `Char.isDigit` (the
decimal digits; jitcode's module and sub-routine names are ASCII). -/
def rsplitIntAux : List Char → List Char × List Char
  | [] => ([], [])
  | c :: rest =>
    if c.isDigit then
      ((rsplitIntAux rest).1, (rsplitIntAux rest).2 ++ [c])
    else ((c :: rest).reverse, [])

/-- Embedding of `rsplit_int`: split a string into the stem and its
maximal decimal-digit suffix. -/
def rsplit_int (s : String) : String × String :=
  (String.mk (rsplitIntAux s.data.reverse).1,
    String.mk (rsplitIntAux s.data.reverse).2)

/-- Python's `int` on a decimal-digit string. -/
def parseNat (l : List Char) : Nat :=
  l.foldl (fun a c => 10 * a + (c.toNat - 48)) 0

/-- Python's zero-padded formatting `"%.Ni" % m`: the decimal
representation of `m`, left-padded with zeros to at least `w`
characters. -/
def padNum (w : Nat) (m : Nat) : String :=
  String.mk (List.replicate (w - (toString m).length) '0' ++ (toString m).data)

/-- Embedding of `count_up`: bump the trailing decimal suffix of a
name, or append `"_1"` when the name does not end in a digit. -/
def count_up (name : String) : String :=
  if (rsplit_int name).2.data.isEmpty then (rsplit_int name).1 ++ "_1"
  else
    (rsplit_int name).1 ++
      padNum (rsplit_int name).2.length (parseNat (rsplit_int name).2.data + 1)

theorem rsplitIntAux_digits :
    ∀ (l sr x z : List Char), (∀ c ∈ l, c.isDigit = true) →
      rsplitIntAux sr = (x, z) →
      rsplitIntAux (l ++ sr) = (x, z ++ l.reverse) := by
  intro l
  induction l with
  | nil => intro sr x z _ h; simpa using h
  | cons c t ih =>
    intro sr x z hd h
    have hc : c.isDigit = true := hd c (List.mem_cons_self c t)
    have ht : ∀ e ∈ t, e.isDigit = true := fun e he => hd e (List.mem_cons_of_mem c he)
    show rsplitIntAux (c :: (t ++ sr)) = _
    simp only [rsplitIntAux, hc, if_true]
    rw [ih sr x z ht h]
    simp

theorem rsplitIntAux_stem (stem : List Char)
    (h : Option.all (fun c => ! c.isDigit) stem.getLast? = true) :
    rsplitIntAux stem.reverse = (stem, []) := by
  cases hrev : stem.reverse with
  | nil =>
    have hnil : stem = [] := by
      have := congrArg List.reverse hrev
      simpa using this
    subst hnil
    rfl
  | cons c rest =>
    have hlast : stem.getLast? = some c := by
      rw [← List.head?_reverse, hrev]
      rfl
    rw [hlast] at h
    have hc : c.isDigit = false := by
      simp [Option.all] at h
      simpa using h
    show rsplitIntAux (c :: rest) = _
    simp only [rsplitIntAux, hc, Bool.false_eq_true, if_false]
    rw [← hrev]
    simp

theorem rsplit_int_split (stem d : List Char)
    (hd : ∀ c ∈ d, c.isDigit = true)
    (hstem : Option.all (fun c => ! c.isDigit) stem.getLast? = true) :
    rsplit_int (String.mk (stem ++ d)) = (String.mk stem, String.mk d) := by
  unfold rsplit_int
  have h1 : (String.mk (stem ++ d)).data = stem ++ d := rfl
  rw [h1, List.reverse_append]
  have hrd : ∀ c ∈ d.reverse, c.isDigit = true :=
    fun c hc => hd c (List.mem_reverse.mp hc)
  rw [rsplitIntAux_digits d.reverse stem.reverse stem []
    hrd (rsplitIntAux_stem stem hstem)]
  simp

/-- C10: if a name ends in a maximal nonempty decimal-digit suffix `d`
(the stem does not end in a digit), `count_up` returns the stem
followed by the decimal representation of `int(d)+1`, left-padded with
zeros to at least `len(d)` characters; a name not ending in a digit
gets `"_1"` appended; in particular repeated application yields
`name_1`, `name_2`, `name_3`. -/
theorem claim_C10_count_up :
    (∀ (stem d : List Char), d ≠ [] → (∀ c ∈ d, c.isDigit = true) →
        Option.all (fun c => ! c.isDigit) stem.getLast? = true →
        count_up (String.mk (stem ++ d))
          = String.mk stem ++ padNum d.length (parseNat d + 1)) ∧
      (∀ s : String, Option.all (fun c => ! c.isDigit) s.data.getLast? = true →
        count_up s = s ++ "_1") ∧
      (count_up "name" = "name_1" ∧ count_up "name_1" = "name_2" ∧
        count_up "name_2" = "name_3") := by
  refine ⟨?_, ?_, by decide, by decide, by decide⟩
  · intro stem d hne hd hstem
    unfold count_up
    rw [rsplit_int_split stem d hd hstem]
    have hde : (String.mk d).data.isEmpty = false := by
      cases d with
      | nil => exact absurd rfl hne
      | cons c t => rfl
    rw [hde]
    rfl
  · intro s hs
    obtain ⟨sd⟩ := s
    unfold count_up
    unfold rsplit_int
    rw [rsplitIntAux_stem sd hs]
    rfl

theorem claim_C10_witness :
    count_up (String.mk (['v'] ++ ['0', '9']))
        = String.mk ['v'] ++ padNum 2 (parseNat ['0', '9'] + 1) ∧
      count_up "abc" = "abc" ++ "_1" :=
  ⟨claim_C10_count_up.1 ['v'] ['0', '9'] (by decide) (by decide) (by decide),
    claim_C10_count_up.2.1 "abc" (by decide)⟩

/-! ### The chunked code emitter (`write_in_chunks` in `_helpers.py`)

The two sinks `mainfile` and `deffile` are modelled as the lists of
strings written to them, returned as a pair `(main, definitions)`. -/

/-- The call line one loop iteration writes to the main sink. -/
def mainCall (fn : String) (args : List (String × String)) : String :=
  fn ++ "(" ++ String.intercalate ", " (args.map Prod.fst) ++ ");\n"

/-- The sub-routine header one loop iteration writes to the definitions
sink. -/
def defHeader (fn : String) (args : List (String × String)) : String :=
  "void " ++ fn ++ "(" ++
    (if args.isEmpty then "void"
     else String.intercalate ", " (args.map fun a => a.2 ++ " " ++ a.1)) ++
    ")\x7b\n"

/-- The `while True` loop of `write_in_chunks`, for the case where more
than `chunk_size` lines exist.  Each iteration writes a call line to
the main sink and one sub-routine (header, up to `chunk_size` lines,
closing brace) to the definitions sink; when fewer than `chunk_size`
lines remain, the `StopIteration` inside the chunk body ends the loop
after the `finally` clause writes the closing brace.  The loop is
bounded by a fuel argument; `lines.length + 1` iterations suffice for
any `chunk_size ≥ 1`, which the callers guarantee (`chunk_size < 1`
disables chunking before `write_in_chunks` is reached). -/
def chunkLoop (chunkSize : Nat) (args : List (String × String)) :
    Nat → List String → String → List String × List String
  | 0, _, _ => ([], [])
  | fuel + 1, lines, fn =>
    if lines.length < chunkSize then
      ([mainCall fn args], defHeader fn args :: lines ++ ["\x7d\n"])
    else
      let mr := chunkLoop chunkSize args fuel (lines.drop chunkSize) (count_up fn)
      (mainCall fn args :: mr.1,
        (defHeader fn args :: lines.take chunkSize ++ ["\x7d\n"]) ++ mr.2)

/-- Embedding of `write_in_chunks`: if the producer yields at most
`chunk_size` lines, they are all written inline to the main sink;
otherwise the chunking loop runs, starting from sub-routine name
`definitions_<name>`. -/
def write_in_chunks (lines : List String) (name : String) (chunkSize : Nat)
    (args : List (String × String)) : List String × List String :=
  if lines.length ≤ chunkSize then (lines, [])
  else chunkLoop chunkSize args (lines.length + 1) lines ("definitions_" ++ name)

theorem chunkLoop_break (cs : Nat) (args : List (String × String)) (fuel : Nat)
    (lines : List String) (fn : String) (h : lines.length < cs) :
    chunkLoop cs args (fuel + 1) lines fn
      = ([mainCall fn args], defHeader fn args :: lines ++ ["\x7d\n"]) := by
  simp [chunkLoop, h]

theorem chunkLoop_step (cs : Nat) (args : List (String × String)) (fuel : Nat)
    (lines : List String) (fn : String) (h : ¬ lines.length < cs) :
    chunkLoop cs args (fuel + 1) lines fn
      = (mainCall fn args
            :: (chunkLoop cs args fuel (lines.drop cs) (count_up fn)).1,
         (defHeader fn args :: lines.take cs ++ ["\x7d\n"])
            ++ (chunkLoop cs args fuel (lines.drop cs) (count_up fn)).2) := by
  simp [chunkLoop, h]

/-- C5: with 250 produced lines and `chunk_size = 100`, the emitter
writes exactly three sub-routines to the definitions sink — the first
two holding 100 lines each and the third the remaining 50 — each
preceded in the main sink by a call to the correspondingly numbered
sub-routine name (`definitions_<name>`, then its `count_up`
successors); with 50 produced lines and `chunk_size = 100`, all lines
go inline to the main sink and no sub-routine is emitted. -/
theorem claim_C5_chunking (l250 l50 : List String) (name : String)
    (args : List (String × String))
    (h250 : l250.length = 250) (h50 : l50.length = 50) :
    write_in_chunks l250 name 100 args
        = ([mainCall ("definitions_" ++ name) args,
            mainCall (count_up ("definitions_" ++ name)) args,
            mainCall (count_up (count_up ("definitions_" ++ name))) args],
           (defHeader ("definitions_" ++ name) args
               :: l250.take 100 ++ ["\x7d\n"])
             ++ ((defHeader (count_up ("definitions_" ++ name)) args
                   :: (l250.drop 100).take 100 ++ ["\x7d\n"])
               ++ (defHeader (count_up (count_up ("definitions_" ++ name))) args
                   :: (l250.drop 100).drop 100 ++ ["\x7d\n"]))) ∧
      write_in_chunks l50 name 100 args = (l50, []) := by
  constructor
  · have d1 : (l250.drop 100).length = 150 := by simp [h250]
    have d2 : ((l250.drop 100).drop 100).length = 50 := by simp [h250]
    unfold write_in_chunks
    rw [if_neg (by omega), h250]
    rw [show (250 + 1 : Nat) = 250 + 1 from rfl,
      chunkLoop_step 100 args 250 l250 _ (by omega)]
    rw [show (250 : Nat) = 249 + 1 from rfl,
      chunkLoop_step 100 args 249 (l250.drop 100) _ (by rw [d1]; omega)]
    rw [show (249 : Nat) = 248 + 1 from rfl,
      chunkLoop_break 100 args 248 ((l250.drop 100).drop 100) _ (by rw [d2]; omega)]
  · unfold write_in_chunks
    rw [if_pos (by omega)]

theorem claim_C5_witness :
    write_in_chunks (List.replicate 250 "x;\n") "f" 100 []
        = ([mainCall "definitions_f" [], mainCall "definitions_f_1" [],
            mainCall "definitions_f_2" []],
           (defHeader "definitions_f" []
               :: List.replicate 100 "x;\n" ++ ["\x7d\n"])
             ++ ((defHeader "definitions_f_1" []
                   :: List.replicate 100 "x;\n" ++ ["\x7d\n"])
               ++ (defHeader "definitions_f_2" []
                   :: List.replicate 50 "x;\n" ++ ["\x7d\n"]))) ∧
      write_in_chunks (List.replicate 50 "x;\n") "f" 100 []
        = (List.replicate 50 "x;\n", []) := by
  have h := claim_C5_chunking (List.replicate 250 "x;\n")
    (List.replicate 50 "x;\n") "f" [] (by rw [List.length_replicate])
    (by rw [List.length_replicate])
  have e0 : ("definitions_" ++ "f" : String) = "definitions_f" := rfl
  have e1 : count_up "definitions_f" = "definitions_f_1" := rfl
  have e2 : count_up "definitions_f_1" = "definitions_f_2" := rfl
  rw [e0, e1, e2] at h
  have t1 : (List.replicate 250 "x;\n").take 100 = List.replicate 100 "x;\n" := by
    rw [List.take_replicate]; norm_num
  have t2 : (List.replicate 250 "x;\n").drop 100 = List.replicate 150 "x;\n" := by
    rw [List.drop_replicate]
  rw [t1, t2] at h
  have t3 : (List.replicate 150 "x;\n").take 100 = List.replicate 100 "x;\n" := by
    rw [List.take_replicate]; norm_num
  have t4 : (List.replicate 150 "x;\n").drop 100 = List.replicate 50 "x;\n" := by
    rw [List.drop_replicate]
  rw [t3, t4] at h
  exact h

/-! ### The sparse Jacobian producer of `jitcode.generate_jac_C` -/

/-- The `set_dfdy` assignment producer of `generate_jac_C`: one
`(i, j, entry)` triple per Jacobian entry, with an entry skipped
exactly when it equals zero and the sparsity policy is enabled. -/
def jac_set_dfdy (jac : List (List Expr)) (sparse : Bool) :
    List (Nat × Nat × Expr) :=
  jac.enum.flatMap fun il =>
    il.2.enum.filterMap fun je =>
      if je.2 ≠ Expr.const 0 ∨ ¬ sparse then some (il.1, je.1, je.2) else none

/-- C6: for a 3-by-3 Jacobian whose only nonzero entries are the three
diagonal ones, the sparse producer yields exactly 3 `set_dfdy`
assignments and the non-sparse producer all 9; with the default
`chunk_size = 100` both are emitted inline, one statement per produced
assignment. -/
theorem claim_C6_sparsity (d0 d1 d2 : Expr)
    (h0 : d0 ≠ Expr.const 0) (h1 : d1 ≠ Expr.const 0)
    (h2 : d2 ≠ Expr.const 0) :
    (jac_set_dfdy
        [[d0, Expr.const 0, Expr.const 0],
         [Expr.const 0, d1, Expr.const 0],
         [Expr.const 0, Expr.const 0, d2]] true).length = 3 ∧
      (jac_set_dfdy
        [[d0, Expr.const 0, Expr.const 0],
         [Expr.const 0, d1, Expr.const 0],
         [Expr.const 0, Expr.const 0, d2]] false).length = 9 ∧
      (∀ (render : Nat × Nat × Expr → String)
          (args : List (String × String)) (sparse : Bool),
        write_in_chunks
            ((jac_set_dfdy
              [[d0, Expr.const 0, Expr.const 0],
               [Expr.const 0, d1, Expr.const 0],
               [Expr.const 0, Expr.const 0, d2]] sparse).map render)
            "jac" 100 args
          = ((jac_set_dfdy
              [[d0, Expr.const 0, Expr.const 0],
               [Expr.const 0, d1, Expr.const 0],
               [Expr.const 0, Expr.const 0, d2]] sparse).map render, [])) := by
  have hT : (jac_set_dfdy
      [[d0, Expr.const 0, Expr.const 0],
       [Expr.const 0, d1, Expr.const 0],
       [Expr.const 0, Expr.const 0, d2]] true).length = 3 := by
    simp [jac_set_dfdy, List.enum, List.enumFrom, h0, h1, h2]
  have hF : (jac_set_dfdy
      [[d0, Expr.const 0, Expr.const 0],
       [Expr.const 0, d1, Expr.const 0],
       [Expr.const 0, Expr.const 0, d2]] false).length = 9 := by
    simp [jac_set_dfdy, List.enum, List.enumFrom]
  refine ⟨hT, hF, ?_⟩
  intro render args sparse
  unfold write_in_chunks
  rw [if_pos]
  rw [List.length_map]
  cases sparse
  · rw [hF]; omega
  · rw [hT]; omega

theorem claim_C6_witness :
    (jac_set_dfdy
        [[Expr.y 0, Expr.const 0, Expr.const 0],
         [Expr.const 0, Expr.y 1, Expr.const 0],
         [Expr.const 0, Expr.const 0, Expr.y 2]] true).length = 3 ∧
      (jac_set_dfdy
        [[Expr.y 0, Expr.const 0, Expr.const 0],
         [Expr.const 0, Expr.y 1, Expr.const 0],
         [Expr.const 0, Expr.const 0, Expr.y 2]] false).length = 9 ∧
      (∀ (render : Nat × Nat × Expr → String)
          (args : List (String × String)) (sparse : Bool),
        write_in_chunks
            ((jac_set_dfdy
              [[Expr.y 0, Expr.const 0, Expr.const 0],
               [Expr.const 0, Expr.y 1, Expr.const 0],
               [Expr.const 0, Expr.const 0, Expr.y 2]] sparse).map render)
            "jac" 100 args
          = ((jac_set_dfdy
              [[Expr.y 0, Expr.const 0, Expr.const 0],
               [Expr.const 0, Expr.y 1, Expr.const 0],
               [Expr.const 0, Expr.const 0, Expr.y 2]] sparse).map render, [])) :=
  claim_C6_sparsity (Expr.y 0) (Expr.y 1) (Expr.y 2)
    (by decide) (by decide) (by decide)

/-! ### Module-name bookkeeping of `jitcode.compile_C`

`sys.modules` is modelled as the list of module names registered in the
process (`registry`); loading a compiled extension module registers its
name there, as Python's module loading does.  The per-instance
temporary build directory is modelled as the list of file names it
contains. -/

structure CompileState where
  registry : List String
  modulename : String
  tmpfiles : List String
deriving Repr, DecidableEq

/-- The `while self._modulename in modules.keys()` loop that bumps the
default module name with `count_up`; bounded by fuel
(`registry.length + 1` iterations suffice for a finite registry). -/
def bumpModulename (registry : List String) : Nat → String → String
  | 0, m => m
  | fuel + 1, m =>
    if m ∈ registry then bumpModulename registry fuel (count_up m) else m

/-- Embedding of the module-naming and file-existence logic of
`jitcode.compile_C` (code generation, template rendering and the
compiler invocation itself do not affect the module name): an
explicitly requested name (`modulename` truthy, i.e. nonempty) that is
already registered raises
`NameError("Module name has already been used…")`; a fresh explicit
name is taken as is; with no request, the stored name is bumped past
the registry.  If the module file already exists in the build
directory, `OSError` is raised.  On success the compiled module is
loaded, registering the chosen name, and the source and module files
appear in the build directory. -/
def compile_C (s : CompileState) (requested : String) :
    Except String CompileState :=
  match (if requested ≠ "" then
      if requested ∈ s.registry then
        Except.error
          "NameError: Module name has already been used in this instance of Python."
      else Except.ok requested
    else
      Except.ok (bumpModulename s.registry (s.registry.length + 1) s.modulename))
    with
  | .error e => .error e
  | .ok m =>
    if (m ++ ".so") ∈ s.tmpfiles then
      .error "OSError: Module file already exists."
    else
      .ok { registry := s.registry ++ [m], modulename := m,
            tmpfiles := s.tmpfiles ++ [m ++ ".c", m ++ ".so"] }

/-- C7: once `compile_C` has succeeded with an explicitly requested
module name, calling it again in the same process with the same name
fails with the `NameError` about the name being already used. -/
theorem claim_C7_module_name_collision (s s2 : CompileState) (m : String)
    (hm : m ≠ "") (h : compile_C s m = .ok s2) :
    compile_C s2 m
      = .error
          "NameError: Module name has already been used in this instance of Python." := by
  unfold compile_C at h ⊢
  rw [if_pos hm] at h ⊢
  by_cases hr : m ∈ s.registry
  · rw [if_pos hr] at h
    simp at h
  · rw [if_neg hr] at h
    dsimp only at h
    by_cases hf : (m ++ ".so") ∈ s.tmpfiles
    · rw [if_pos hf] at h
      simp at h
    · rw [if_neg hf] at h
      have h2 := (Except.ok.injEq _ _).mp h
      have hreg : m ∈ s2.registry := by
        rw [← h2]
        simp
      rw [if_pos hreg]

theorem claim_C7_witness :
    compile_C ⟨[], "jitced", []⟩ "mymod"
        = .ok ⟨["mymod"], "mymod", ["mymod.c", "mymod.so"]⟩ ∧
      compile_C ⟨["mymod"], "mymod", ["mymod.c", "mymod.so"]⟩ "mymod"
        = .error
            "NameError: Module name has already been used in this instance of Python." := by
  have h1 : compile_C ⟨[], "jitced", []⟩ "mymod"
      = .ok ⟨["mymod"], "mymod", ["mymod.c", "mymod.so"]⟩ := rfl
  exact ⟨h1,
    claim_C7_module_name_collision ⟨[], "jitced", []⟩
      ⟨["mymod"], "mymod", ["mymod.c", "mymod.so"]⟩ "mymod" (by decide) h1⟩

/-! ### State preservation in `jitcode.set_integrator`

SciPy's `ode` base class is an external collaborator; its `__init__`,
`set_integrator` and `set_initial_value` are modelled from their
documented semantics on the fields jitcode touches: `__init__` clears
the state vector `_y` (leaving `t` unset), `set_integrator` stores the
chosen integrator and initialises `t = 0.0`, `_y = [0.0]` when no state
vector is present, and `set_initial_value` stores the given state and
time.  Scalars are modelled as rationals; `set_integrator` only moves
them around, so no arithmetic is involved.  `t = none` models the
absence of the `t` attribute (the `AttributeError` branch). -/

structure OdeState where
  t : Option ℚ
  y : List ℚ
  integrator : Option String
  wantsJacobian : Bool
deriving Repr, DecidableEq

/-- SciPy `ode.__init__` on the modelled fields: resets `_y = []`. -/
def ode_init (s : OdeState) : OdeState := { s with y := [] }

/-- SciPy `ode.set_integrator` on the modelled fields. -/
def ode_set_integrator (s : OdeState) (name : String) : OdeState :=
  let s1 := { s with integrator := some name }
  if s1.y.isEmpty then { s1 with t := some 0, y := [0] } else s1

/-- SciPy `ode.set_initial_value` on the modelled fields. -/
def ode_set_initial_value (s : OdeState) (y0 : List ℚ) (t0 : ℚ) : OdeState :=
  { s with y := y0, t := some t0 }

/-- Embedding of `jitcode.set_integrator`: reject `zvode`, absorb the
Jacobian requirement of the chosen algorithm, then re-initialise the
underlying SciPy object — saving the current time and state beforehand
and restoring them afterwards when they had been set. -/
def set_integrator (s : OdeState) (name : String) (canUseJac : String → Bool) :
    Except String OdeState :=
  if name = "zvode" then
    .error "NotImplementedError: JiTCODE does not natively support complex numbers yet."
  else
    let s1 := { s with wantsJacobian := s.wantsJacobian || canUseJac name }
    match s.t with
    | none => .ok (ode_set_integrator (ode_init s1) name)
    | some t0 =>
      .ok (ode_set_initial_value (ode_set_integrator (ode_init s1) name) s1.y t0)

/-- C8: when an initial state and time have been set, re-selecting a
supported (non-complex) integrator leaves the stored time and state
vector unchanged: they are saved before the re-initialisation and
restored afterwards. -/
theorem claim_C8_set_integrator_preserves_state (s : OdeState) (name : String)
    (canUseJac : String → Bool) (t0 : ℚ)
    (hz : name ≠ "zvode") (ht : s.t = some t0) :
    ∃ s2, set_integrator s name canUseJac = .ok s2 ∧
      s2.t = some t0 ∧ s2.y = s.y ∧ s2.integrator = some name := by
  unfold set_integrator
  rw [if_neg hz, ht]
  exact ⟨_, rfl, rfl, rfl, rfl⟩

theorem claim_C8_witness :
    ∃ s2,
      set_integrator ⟨some 5, [1, 2], some "dopri5", false⟩ "lsoda"
          (fun _ => true) = .ok s2 ∧
        s2.t = some 5 ∧ s2.y = [1, 2] ∧ s2.integrator = some "lsoda" :=
  claim_C8_set_integrator_preserves_state
    ⟨some 5, [1, 2], some "dopri5", false⟩ "lsoda" (fun _ => true) 5
    (by decide) rfl

/-! ### The Gram-Schmidt routine `orthonormalise`

Embedding of `orthonormalise` from `_helpers.py`, read over exact real
arithmetic (as the claim states) in an arbitrary real inner product
space.  The routine mutates the vectors in place; the embedding
threads the list of already-processed (orthonormalised) vectors and
the list of recorded norms through the recursion and returns both. -/

noncomputable section

variable {E : Type} [NormedAddCommGroup E] [InnerProductSpace ℝ E]

/-- The inner `for j in range(i)` loop of `orthonormalise`: subtract
from the current vector its projection onto each previously processed
vector in order, recomputing the inner product with the updated vector
each time (`vector -= np.dot(vector, vectors[j]) * vectors[j]`). -/
def orthogonalise (acc : List E) (v : E) : E :=
  acc.foldl (fun w u => w - (inner w u : ℝ) • u) v

/-- The main loop of `orthonormalise`: orthogonalise each vector
against the processed prefix, record its norm, divide by the norm. -/
def orthonormaliseAux (acc : List E) (norms : List ℝ) :
    List E → List E × List ℝ
  | [] => (acc, norms)
  | v :: rest =>
    orthonormaliseAux
      (acc ++ [‖orthogonalise acc v‖⁻¹ • orthogonalise acc v])
      (norms ++ [‖orthogonalise acc v‖]) rest

/-- Embedding of `orthonormalise`: the rewritten vectors together with
the norms recorded after orthogonalisation. -/
def orthonormalise (vs : List E) : List E × List ℝ :=
  orthonormaliseAux [] [] vs

theorem orthogonalise_cons (u : E) (t : List E) (v : E) :
    orthogonalise (u :: t) v = orthogonalise t (v - (inner v u : ℝ) • u) :=
  rfl

theorem inner_eq_zero_of_mem_span (l : List E) (u : E)
    (h : ∀ x ∈ l, (inner x u : ℝ) = 0) :
    ∀ z ∈ Submodule.span ℝ {x | x ∈ l}, (inner z u : ℝ) = 0 := by
  intro z hz
  induction hz using Submodule.span_induction with
  | mem x hx => exact h x hx
  | zero => exact inner_zero_left u
  | add x y hx hy ihx ihy => rw [inner_add_left, ihx, ihy]; ring
  | smul a x hx ihx => rw [real_inner_smul_left, ihx]; ring

theorem orthogonalise_sub_mem_span :
    ∀ (acc : List E) (v : E),
      v - orthogonalise acc v ∈ Submodule.span ℝ {x | x ∈ acc} := by
  intro acc
  induction acc with
  | nil =>
    intro v
    have h0 : v - orthogonalise [] v = 0 := by
      simp [orthogonalise]
    rw [h0]
    exact Submodule.zero_mem _
  | cons u t ih =>
    intro v
    have h1 := ih (v - (inner v u : ℝ) • u)
    have hspan : Submodule.span ℝ {x | x ∈ t}
        ≤ Submodule.span ℝ {x | x ∈ u :: t} :=
      Submodule.span_mono (fun x hx => List.mem_cons_of_mem u hx)
    have hu : u ∈ Submodule.span ℝ {x | x ∈ u :: t} :=
      Submodule.subset_span (List.mem_cons_self u t)
    have hdecomp : v - orthogonalise (u :: t) v
        = (inner v u : ℝ) • u
          + ((v - (inner v u : ℝ) • u)
              - orthogonalise t (v - (inner v u : ℝ) • u)) := by
      rw [orthogonalise_cons]
      abel
    rw [hdecomp]
    exact Submodule.add_mem _ (Submodule.smul_mem _ _ hu) (hspan h1)

theorem orthogonalise_inner_eq_zero :
    ∀ (acc : List E) (v : E), (∀ u ∈ acc, ‖u‖ = 1) →
      acc.Pairwise (fun a b => (inner a b : ℝ) = 0) →
      ∀ u ∈ acc, (inner (orthogonalise acc v) u : ℝ) = 0 := by
  intro acc
  induction acc with
  | nil => intro v _ _ u hu; simp at hu
  | cons a t ih =>
    intro v hunit hpw u hu
    obtain ⟨hpwa, hpwt⟩ := List.pairwise_cons.mp hpw
    rw [orthogonalise_cons]
    rcases List.mem_cons.mp hu with rfl | hut
    · have hzero : ∀ x ∈ t, (inner x u : ℝ) = 0 := by
        intro x hx
        rw [real_inner_comm]
        exact hpwa x hx
      have hz := orthogonalise_sub_mem_span t (v - (inner v u : ℝ) • u)
      have hzinner := inner_eq_zero_of_mem_span t u hzero _ hz
      have e1 : (inner (v - (inner v u : ℝ) • u) u : ℝ) = 0 := by
        rw [inner_sub_left, real_inner_smul_left,
          real_inner_self_eq_norm_mul_norm, hunit u (List.mem_cons_self u t)]
        ring
      have e2 : orthogonalise t (v - (inner v u : ℝ) • u)
          = (v - (inner v u : ℝ) • u)
            - ((v - (inner v u : ℝ) • u)
                - orthogonalise t (v - (inner v u : ℝ) • u)) := by
        rw [sub_sub_cancel]
      rw [e2, inner_sub_left, e1, hzinner]
      ring
    · exact ih (v - (inner v a : ℝ) • a)
        (fun x hx => hunit x (List.mem_cons_of_mem a hx)) hpwt u hut

theorem getD_concat_len {α : Type} (l : List α) (a : α) (r : List α) (d : α) :
    (l ++ a :: r).getD l.length d = a := by
  induction l with
  | nil => rfl
  | cons x t ih => simpa using ih

theorem orthonormaliseAux_spec :
    ∀ (rest acc : List E) (norms : List ℝ) (pre : List E),
      (∀ u ∈ acc, ‖u‖ = 1) →
      acc.Pairwise (fun a b => (inner a b : ℝ) = 0) →
      (∀ u ∈ acc, u ∈ Submodule.span ℝ {x | x ∈ pre}) →
      (∀ i (hi : i < rest.length),
          rest.get ⟨i, hi⟩ ∉ Submodule.span ℝ {x | x ∈ pre ++ rest.take i}) →
      (∀ u ∈ (orthonormaliseAux acc norms rest).1, ‖u‖ = 1) ∧
        (orthonormaliseAux acc norms rest).1.Pairwise
          (fun a b => (inner a b : ℝ) = 0) ∧
        (orthonormaliseAux acc norms rest).1.length
          = acc.length + rest.length ∧
        (orthonormaliseAux acc norms rest).2.length
          = norms.length + rest.length ∧
        (∃ tl, (orthonormaliseAux acc norms rest).1 = acc ++ tl) ∧
        (∃ tn, (orthonormaliseAux acc norms rest).2 = norms ++ tn) ∧
        (∀ k, k < rest.length →
          (orthonormaliseAux acc norms rest).2.getD (norms.length + k) 0
            = ‖orthogonalise
                ((orthonormaliseAux acc norms rest).1.take (acc.length + k))
                (rest.getD k 0)‖) := by
  intro rest
  induction rest with
  | nil =>
    intro acc norms pre hunit hpw _ _
    refine ⟨hunit, hpw, by simp [orthonormaliseAux], by simp [orthonormaliseAux],
      ⟨[], by simp [orthonormaliseAux]⟩, ⟨[], by simp [orthonormaliseAux]⟩, ?_⟩
    intro k hk
    simp at hk
  | cons v rest2 ih =>
    intro acc norms pre hunit hpw hspan hind
    set w := orthogonalise acc v with hw
    set nm := ‖w‖ with hnm
    set u1 := nm⁻¹ • w with hu1
    have hstep : orthonormaliseAux acc norms (v :: rest2)
        = orthonormaliseAux (acc ++ [u1]) (norms ++ [nm]) rest2 := rfl
    have hspanle : Submodule.span ℝ {x | x ∈ acc}
        ≤ Submodule.span ℝ {x | x ∈ pre} :=
      Submodule.span_le.mpr (fun x hx => hspan x hx)
    have hv0 : v ∉ Submodule.span ℝ {x | x ∈ pre} := by
      have h0 := hind 0 (by simp)
      simpa using h0
    have hwne : w ≠ 0 := by
      intro h0
      apply hv0
      have hmem := hspanle (orthogonalise_sub_mem_span acc v)
      rw [← hw] at hmem
      rw [h0, sub_zero] at hmem
      exact hmem
    have hnm0 : nm ≠ 0 := by
      rw [hnm]
      exact norm_ne_zero_iff.mpr hwne
    have hwn0 : ‖w‖ ≠ 0 := by
      rw [← hnm]
      exact hnm0
    have hu1n : ‖u1‖ = 1 := by
      rw [hu1, norm_smul, hnm, norm_inv, norm_norm]
      exact inv_mul_cancel₀ hwn0
    have hworth : ∀ u ∈ acc, (inner w u : ℝ) = 0 := by
      rw [hw]
      exact orthogonalise_inner_eq_zero acc v hunit hpw
    have hu1orth : ∀ u ∈ acc, (inner u1 u : ℝ) = 0 := by
      intro u hu
      rw [hu1, real_inner_smul_left, hworth u hu]
      ring
    have hunit2 : ∀ u ∈ acc ++ [u1], ‖u‖ = 1 := by
      intro u hu
      rcases List.mem_append.mp hu with h | h
      · exact hunit u h
      · rw [List.mem_singleton.mp h]
        exact hu1n
    have hpw2 : (acc ++ [u1]).Pairwise (fun a b => (inner a b : ℝ) = 0) := by
      rw [List.pairwise_append]
      refine ⟨hpw, by simp, ?_⟩
      intro a ha b hb
      rw [List.mem_singleton.mp hb, real_inner_comm]
      exact hu1orth a ha
    have hpresub : Submodule.span ℝ {x | x ∈ pre}
        ≤ Submodule.span ℝ {x | x ∈ pre ++ [v]} :=
      Submodule.span_mono (fun x hx => List.mem_append_left _ hx)
    have hspan2 : ∀ u ∈ acc ++ [u1],
        u ∈ Submodule.span ℝ {x | x ∈ pre ++ [v]} := by
      intro u hu
      rcases List.mem_append.mp hu with h | h
      · exact hpresub (hspan u h)
      · rw [List.mem_singleton.mp h, hu1]
        have hvmem : v ∈ Submodule.span ℝ {x | x ∈ pre ++ [v]} :=
          Submodule.subset_span (List.mem_append_right _ (List.mem_singleton_self v))
        have hvw : v - w ∈ Submodule.span ℝ {x | x ∈ pre ++ [v]} := by
          refine hpresub (hspanle ?_)
          rw [hw]
          exact orthogonalise_sub_mem_span acc v
        have hwmem : w ∈ Submodule.span ℝ {x | x ∈ pre ++ [v]} := by
          have hsub := Submodule.sub_mem _ hvmem hvw
          simpa using hsub
        exact Submodule.smul_mem _ _ hwmem
    have hind2 : ∀ i (hi : i < rest2.length),
        rest2.get ⟨i, hi⟩
          ∉ Submodule.span ℝ {x | x ∈ (pre ++ [v]) ++ rest2.take i} := by
      intro i hi
      have h1 := hind (i + 1) (by simpa using Nat.succ_lt_succ hi)
      have heq : pre ++ (v :: rest2).take (i + 1) = (pre ++ [v]) ++ rest2.take i := by
        rw [List.take_succ_cons]
        exact List.append_cons _ _ _
      rw [heq] at h1
      exact h1
    obtain ⟨ih1, ih2, ih3, ih4, ⟨tl2, ihtl⟩, ⟨tn2, ihtn⟩, ihn⟩ :=
      ih (acc ++ [u1]) (norms ++ [nm]) (pre ++ [v]) hunit2 hpw2 hspan2 hind2
    rw [hstep]
    refine ⟨ih1, ih2, ?_, ?_, ?_, ?_, ?_⟩
    · rw [ih3]
      simp only [List.length_append, List.length_cons, List.length_nil]
      omega
    · rw [ih4]
      simp only [List.length_append, List.length_cons, List.length_nil]
      omega
    · refine ⟨[u1] ++ tl2, ?_⟩
      rw [ihtl, List.append_assoc]
    · refine ⟨[nm] ++ tn2, ?_⟩
      rw [ihtn, List.append_assoc]
    · intro k hk
      cases k with
      | zero =>
        have h2eq : (orthonormaliseAux (acc ++ [u1]) (norms ++ [nm]) rest2).2
            = norms ++ nm :: tn2 := by
          rw [ihtn, List.append_assoc]
          rfl
        have h1eq : (orthonormaliseAux (acc ++ [u1]) (norms ++ [nm]) rest2).1
            = acc ++ u1 :: tl2 := by
          rw [ihtl, List.append_assoc]
          rfl
        rw [h2eq, h1eq]
        simp only [Nat.add_zero]
        rw [getD_concat_len, List.take_left]
        show nm = ‖orthogonalise acc ((v :: rest2).getD 0 0)‖
        rw [hnm, hw]
        rfl
      | succ j =>
        have hj : j < rest2.length := by
          simp at hk
          omega
        have h1 := ihn j hj
        have e1 : (norms ++ [nm]).length + j = norms.length + (j + 1) := by
          simp only [List.length_append, List.length_cons, List.length_nil]
          omega
        have e2 : (acc ++ [u1]).length + j = acc.length + (j + 1) := by
          simp only [List.length_append, List.length_cons, List.length_nil]
          omega
        rw [e1, e2] at h1
        exact h1

theorem li_not_mem_span_take (vs : List E)
    (hli : LinearIndependent ℝ (fun i : Fin vs.length => vs.get i)) :
    ∀ i (hi : i < vs.length),
      vs.get ⟨i, hi⟩ ∉ Submodule.span ℝ {x | x ∈ vs.take i} := by
  intro i hi hmem
  have himg : Submodule.span ℝ {x | x ∈ vs.take i}
      ≤ Submodule.span ℝ
          ((fun j : Fin vs.length => vs.get j) '' {j | (j : ℕ) < i}) := by
    apply Submodule.span_mono
    intro x hx
    obtain ⟨n, hn⟩ := List.mem_iff_get.mp hx
    have h2 := n.isLt
    have h3 : (List.take i vs).length = min i vs.length := List.length_take i vs
    have hlen : (n : ℕ) < vs.length := by omega
    have hni : (n : ℕ) < i := by omega
    refine ⟨⟨n, hlen⟩, hni, ?_⟩
    show vs.get ⟨(n : ℕ), hlen⟩ = x
    rw [← hn, List.get_eq_getElem, List.get_eq_getElem]
    exact (List.getElem_take vs).symm
  have hnotin := hli.not_mem_span_image
    (s := {j : Fin vs.length | (j : ℕ) < i}) (x := ⟨i, hi⟩) (by simp)
  exact hnotin (himg hmem)

/-- C9: for every list of linearly independent vectors in a real inner
product space (exact arithmetic), `orthonormalise` rewrites the vectors
so that distinct vectors have inner product 0 and every vector has norm
1, and returns for each vector the norm it had immediately after
orthogonalisation against all preceding (already processed) vectors. -/
theorem claim_C9_orthonormalise (vs : List E)
    (hli : LinearIndependent ℝ (fun i : Fin vs.length => vs.get i)) :
    (∀ u ∈ (orthonormalise vs).1, ‖u‖ = 1) ∧
      (orthonormalise vs).1.Pairwise (fun a b => (inner a b : ℝ) = 0) ∧
      (orthonormalise vs).1.length = vs.length ∧
      (orthonormalise vs).2.length = vs.length ∧
      (∀ k, k < vs.length →
        (orthonormalise vs).2.getD k 0
          = ‖orthogonalise ((orthonormalise vs).1.take k) (vs.getD k 0)‖) := by
  have hind : ∀ i (hi : i < vs.length),
      vs.get ⟨i, hi⟩ ∉ Submodule.span ℝ {x | x ∈ ([] : List E) ++ vs.take i} := by
    intro i hi
    rw [List.nil_append]
    exact li_not_mem_span_take vs hli i hi
  obtain ⟨h1, h2, h3, h4, _, _, h7⟩ :=
    orthonormaliseAux_spec vs [] [] [] (by simp) List.Pairwise.nil (by simp) hind
  refine ⟨h1, h2, by simpa using h3, by simpa using h4, ?_⟩
  intro k hk
  have h8 := h7 k hk
  simpa using h8

theorem claim_C9_witness :
    (∀ u ∈ (orthonormalise
        ([EuclideanSpace.single 0 1, EuclideanSpace.single 1 1]
          : List (EuclideanSpace ℝ (Fin 3)))).1, ‖u‖ = 1) ∧
      (orthonormalise
        ([EuclideanSpace.single 0 1, EuclideanSpace.single 1 1]
          : List (EuclideanSpace ℝ (Fin 3)))).1.Pairwise
          (fun a b => (inner a b : ℝ) = 0) ∧
      (orthonormalise
        ([EuclideanSpace.single 0 1, EuclideanSpace.single 1 1]
          : List (EuclideanSpace ℝ (Fin 3)))).1.length = 2 ∧
      (orthonormalise
        ([EuclideanSpace.single 0 1, EuclideanSpace.single 1 1]
          : List (EuclideanSpace ℝ (Fin 3)))).2.length = 2 ∧
      (∀ k, k < 2 →
        (orthonormalise
          ([EuclideanSpace.single 0 1, EuclideanSpace.single 1 1]
            : List (EuclideanSpace ℝ (Fin 3)))).2.getD k 0
          = ‖orthogonalise
              ((orthonormalise
                ([EuclideanSpace.single 0 1, EuclideanSpace.single 1 1]
                  : List (EuclideanSpace ℝ (Fin 3)))).1.take k)
              (([EuclideanSpace.single 0 1, EuclideanSpace.single 1 1]
                  : List (EuclideanSpace ℝ (Fin 3))).getD k 0)‖) :=
  claim_C9_orthonormalise
    ([EuclideanSpace.single 0 1, EuclideanSpace.single 1 1]
      : List (EuclideanSpace ℝ (Fin 3)))
    (by
      apply linearIndependent_fin2.mpr
      constructor
      · intro h
        have h1 := congrFun h (1 : Fin 3)
        simp [EuclideanSpace.single_apply, PiLp.zero_apply] at h1
      · intro a h
        have h0 := congrFun h (0 : Fin 3)
        simp [EuclideanSpace.single_apply, PiLp.smul_apply,
          EuclideanSpace.single_apply] at h0)

end

end Jitcode
